import Mathlib

/-
Shallow embedding of the stupdedup deduplicator (src/main.rs).

Modelling conventions:
* A FileInfo mirrors the Rust struct FileInfo (display name, normalized name,
  path, byte size).  Paths are strings; sizes are naturals.
* Rust String operations are modelled on Lean strings (lists of characters).
  Every suffix the program tests (" 2", " 3", " 4", " (1)", " (2)", " (3)")
  is pure ASCII, so Rust's byte-based ends_with / split_at / len agree with
  the character-based operations used here.
* dedup_name_size iterates with rayon par_iter, but every per-record body
  runs while holding the global mutex on the originals map (and the
  duplicates mutex across the reassignment window), so the computation is a
  sequential fold over the records in some arbitrary order; we model it as
  a fold over a list and quantify over orders where a claim needs it.
  The dbg! probe and the reassignment log line in the source do not touch
  the classification state and are omitted.
* The originals HashMap is modelled as an association list with
  insert-replaces-key semantics; the duplicates HashSet as a list with
  insert-if-absent / remove semantics.  FileInfo equality is structural,
  exactly as the derived Hash/PartialEq/Eq in the source.
* File contents are lists of bytes (Fin 256); the filesystem is a partial
  map from paths to contents (fs::read succeeding iff the map is defined).
-/

structure FileInfo where
  name : String
  name_undup : String
  path : String
  size : Nat
deriving DecidableEq

/-- Seed constant HASH_SEED = 0xBA647A7A from the source. -/
def HASH_SEED : Nat := 0xBA647A7A

/-- Rust str::ends_with, on characters (all tested suffixes are ASCII). -/
def ends_with (s suffix : String) : Bool := decide (suffix.data <:+ s.data)

/-- Embeds get_undestroyed_name: strip a trailing copy suffix.
Rust split_at(len - k).0 is the first len - k units, i.e. List.take. -/
def get_undestroyed_name (name : String) : String :=
  if ends_with name " 2" || ends_with name " 3" || ends_with name " 4" then
    ⟨name.data.take (name.data.length - 2)⟩
  else if ends_with name " (1)" || ends_with name " (2)" || ends_with name " (3)" then
    ⟨name.data.take (name.data.length - 4)⟩
  else
    name

/-- Association-list lookup, first match wins (HashMap::get). -/
def mapLookup (m : List (String × FileInfo)) (k : String) : Option FileInfo :=
  match m with
  | [] => none
  | p :: rest => if p.1 = k then some p.2 else mapLookup rest k

/-- Association-list insert, replacing any binding of the key (HashMap::insert). -/
def mapInsert (m : List (String × FileInfo)) (k : String) (v : FileInfo) :
    List (String × FileInfo) :=
  (k, v) :: m.filter (fun p => p.1 ≠ k)

/-- Set insert (HashSet::insert). -/
def setInsert (s : List FileInfo) (f : FileInfo) : List FileInfo :=
  if f ∈ s then s else f :: s

/-- Set removal (HashSet::remove). -/
def setRemove (s : List FileInfo) (f : FileInfo) : List FileInfo :=
  s.filter (fun x => x ≠ f)

/-- The two collections built by dedup_name_size: the originals map
(normalized name to canonical record) and the duplicates set. -/
structure DedupState where
  originals : List (String × FileInfo)
  duplicates : List FileInfo
deriving DecidableEq

/-- One iteration of the par_iter body of dedup_name_size for one record,
with the lock-protected lookup / guard / branch structure of the source:
absent key inserts the record as original; same key with a different size
leaves the state unchanged; a strictly shorter display name displaces the
existing original (which joins the duplicates, while the new original is
removed from the duplicates); otherwise the record joins the duplicates. -/
def dedupStep (st : DedupState) (fileinfo : FileInfo) : DedupState :=
  match mapLookup st.originals fileinfo.name_undup with
  | none =>
      { st with originals := mapInsert st.originals fileinfo.name_undup fileinfo }
  | some existing_entry =>
      if existing_entry.size ≠ fileinfo.size then
        st
      else if fileinfo.name.length < existing_entry.name.length then
        { originals := mapInsert st.originals fileinfo.name_undup fileinfo,
          duplicates := setRemove (setInsert st.duplicates existing_entry) fileinfo }
      else
        { st with duplicates := setInsert st.duplicates fileinfo }

/-- Embeds dedup_name_size: fold the per-record step over the records in
their (arbitrary) processing order, starting from empty collections. -/
def dedup_name_size (files : List FileInfo) : DedupState :=
  files.foldl dedupStep { originals := [], duplicates := [] }

/-- The --filter argument (the ValueEnum named Filter in the source; renamed
here because Mathlib already has a Filter). -/
inductive FilterArg
  | notwo
  | onlytwo
  | onlynum
deriving DecidableEq

/-- Embeds get_filter: the predicate applied to each duplicate.  The source
predicates test file.name, the display name. -/
def get_filter (filter_arg : Option FilterArg) : FileInfo → Bool :=
  match filter_arg with
  | some FilterArg.notwo => fun file => !(ends_with file.name " 2")
  | some FilterArg.onlytwo => fun file => ends_with file.name " 2"
  | some FilterArg.onlynum => fun file =>
      ends_with file.name " 2" || ends_with file.name " 3" || ends_with file.name " 4"
  | none => fun _ => true

/-- A filesystem snapshot: path to file contents, none when fs::read fails. -/
def FileSystem : Type := String → Option (List (Fin 256))

/-- Modelled from the spec: the content hash gxhash::gxhash64 (an external
crate, not part of this repository).  The spec requires a fixed-seed 64-bit
content hash that is resistant to accidental collision for this use case;
we model it as a collision-free fold of the bytes (a base-257 positional
encoding with nonzero digits), abstracting the 64-bit truncation. -/
def gxhash64 (data : List (Fin 256)) (seed : Nat) : Nat :=
  data.foldl (fun h b => h * 257 + b.val + 1) seed

/-- Embeds check_dup_hash: read the duplicate and compare content hashes;
an unreadable duplicate yields false. -/
def check_dup_hash (fs : FileSystem) (dup : FileInfo) (orig_hash : Nat) : Bool :=
  match fs dup.path with
  | some dup_file => gxhash64 dup_file HASH_SEED == orig_hash
  | none => false

/-- The per-group body of check_hashes: read the original; if unreadable the
group is left untouched and contributes no rejections; otherwise keep the
duplicates whose hash matches and count the removed ones. -/
def check_group (fs : FileSystem) (original : FileInfo) (duplicates : List FileInfo) :
    List FileInfo × Nat :=
  match fs original.path with
  | some orig_file =>
      (duplicates.filter (fun dup => check_dup_hash fs dup (gxhash64 orig_file HASH_SEED)),
       (duplicates.filter (fun dup => !check_dup_hash fs dup (gxhash64 orig_file HASH_SEED))).length)
  | none => (duplicates, 0)

/-- Embeds check_hashes: each (original, duplicates) group is processed
independently (par_iter_mut in the source), the mutex-guarded counter sums
the per-group rejection counts.  Groups are listed in some order; the
progress-reporting channel has no effect on the data and is omitted. -/
def check_hashes (fs : FileSystem)
    (dupmap : List (FileInfo × List FileInfo)) :
    List (FileInfo × List FileInfo) × Nat :=
  match dupmap with
  | [] => ([], 0)
  | g :: rest =>
      let r := check_group fs g.1 g.2
      let tail := check_hashes fs rest
      ((g.1, r.1) :: tail.1, r.2 + tail.2)

/-- Total number of duplicates held in a group mapping. -/
def countDups (m : List (FileInfo × List FileInfo)) : Nat :=
  (m.map (fun g => g.2.length)).sum

/-- A record counted among the originals-map values. -/
def inOriginalsValues (st : DedupState) (f : FileInfo) : Prop :=
  ∃ p ∈ st.originals, p.2 = f

instance (st : DedupState) (f : FileInfo) : Decidable (inOriginalsValues st f) := by
  unfold inOriginalsValues
  infer_instance

/-- The partition property claimed of the classifier output: every input
record is in exactly one of the originals-map values and the duplicates
set, and both collections only hold input records. -/
def isPartition (files : List FileInfo) (st : DedupState) : Prop :=
  (∀ f ∈ files,
    (inOriginalsValues st f ∧ f ∉ st.duplicates) ∨
    (f ∈ st.duplicates ∧ ¬ inOriginalsValues st f)) ∧
  (∀ p ∈ st.originals, p.2 ∈ files) ∧
  (∀ d ∈ st.duplicates, d ∈ files)

instance (files : List FileInfo) (st : DedupState) : Decidable (isPartition files st) := by
  unfold isPartition
  infer_instance

/-! ### Helper lemmas about the map and set operations -/

theorem mapLookup_filter_ne (m : List (String × FileInfo)) (k k' : String) (h : k ≠ k') :
    mapLookup (m.filter (fun p => p.1 ≠ k)) k' = mapLookup m k' := by
  induction m with
  | nil => rfl
  | cons p rest ih =>
      by_cases hp : p.1 = k
      · rw [List.filter_cons_of_neg (by simp [hp]), ih]
        have hne : p.1 ≠ k' := fun hk => h (hp ▸ hk)
        simp only [mapLookup]
        rw [if_neg hne]
      · rw [List.filter_cons_of_pos (by simp [hp])]
        simp only [mapLookup]
        rw [ih]

theorem mapLookup_mapInsert (m : List (String × FileInfo)) (k : String) (v : FileInfo)
    (k' : String) :
    mapLookup (mapInsert m k v) k' = if k = k' then some v else mapLookup m k' := by
  unfold mapInsert
  by_cases h : k = k'
  · simp [mapLookup, h]
  · simp only [mapLookup, h, if_false]
    exact mapLookup_filter_ne m k k' h

theorem mapLookup_mem {m : List (String × FileInfo)} {k : String} {v : FileInfo}
    (h : mapLookup m k = some v) : (k, v) ∈ m := by
  induction m with
  | nil => simp [mapLookup] at h
  | cons p rest ih =>
      by_cases hp : p.1 = k
      · simp only [mapLookup, hp, if_true] at h
        injection h with h2
        have hkv : (k, v) = p := by
          cases p
          simp only [Prod.mk.injEq]
          exact ⟨hp.symm, h2.symm⟩
        rw [hkv]
        exact List.mem_cons_self _ _
      · simp only [mapLookup, hp, if_false] at h
        exact List.mem_cons_of_mem _ (ih h)

/-- Keys of the originals association list. -/
def mapKeys (m : List (String × FileInfo)) : List String := m.map Prod.fst

theorem mapKeys_mapInsert_nodup {m : List (String × FileInfo)} (k : String) (v : FileInfo)
    (h : (mapKeys m).Nodup) : (mapKeys (mapInsert m k v)).Nodup := by
  unfold mapInsert mapKeys
  simp only [List.map_cons, List.nodup_cons]
  constructor
  · intro hmem
    rcases List.mem_map.1 hmem with ⟨p, hp, hk⟩
    rcases List.mem_filter.1 hp with ⟨_, hne⟩
    simp at hne
    exact hne hk
  · exact ((List.filter_sublist _).map _).nodup h

theorem mem_mapLookup {m : List (String × FileInfo)} (hnd : (mapKeys m).Nodup)
    {k : String} {v : FileInfo} (h : (k, v) ∈ m) : mapLookup m k = some v := by
  induction m with
  | nil => simp at h
  | cons p rest ih =>
      rcases List.mem_cons.1 h with h | h
      · subst h
        simp [mapLookup]
      · have hk : p.1 ≠ k := by
          intro hk
          have : k ∈ mapKeys rest := List.mem_map.2 ⟨(k, v), h, rfl⟩
          unfold mapKeys at hnd
          simp only [List.map_cons, List.nodup_cons] at hnd
          exact hnd.1 (hk ▸ this)
        have hnd' : (mapKeys rest).Nodup := by
          unfold mapKeys at hnd ⊢
          simp only [List.map_cons, List.nodup_cons] at hnd
          exact hnd.2
        simp only [mapLookup, hk, if_false]
        exact ih hnd' h

theorem mem_setInsert {s : List FileInfo} {x y : FileInfo} :
    x ∈ setInsert s y ↔ x = y ∨ x ∈ s := by
  unfold setInsert
  by_cases h : y ∈ s
  · simp only [h, if_true]
    constructor
    · exact Or.inr
    · rintro (rfl | hx)
      · exact h
      · exact hx
  · simp [h]

theorem mem_setRemove {s : List FileInfo} {x y : FileInfo} :
    x ∈ setRemove s y ↔ x ∈ s ∧ x ≠ y := by
  unfold setRemove
  simp [List.mem_filter]

/-! ### Case equations for the classifier step -/

theorem dedupStep_none (st : DedupState) (f : FileInfo)
    (h : mapLookup st.originals f.name_undup = none) :
    dedupStep st f = { st with originals := mapInsert st.originals f.name_undup f } := by
  unfold dedupStep
  rw [h]

theorem dedupStep_diffsize (st : DedupState) (f existing : FileInfo)
    (h : mapLookup st.originals f.name_undup = some existing)
    (hsz : existing.size ≠ f.size) :
    dedupStep st f = st := by
  unfold dedupStep
  rw [h]
  dsimp only
  rw [if_pos hsz]

theorem dedupStep_reassign (st : DedupState) (f existing : FileInfo)
    (h : mapLookup st.originals f.name_undup = some existing)
    (hsz : existing.size = f.size)
    (hlen : f.name.length < existing.name.length) :
    dedupStep st f =
      { originals := mapInsert st.originals f.name_undup f,
        duplicates := setRemove (setInsert st.duplicates existing) f } := by
  unfold dedupStep
  rw [h]
  dsimp only
  rw [if_neg (fun hne => hne hsz), if_pos hlen]

theorem dedupStep_longer (st : DedupState) (f existing : FileInfo)
    (h : mapLookup st.originals f.name_undup = some existing)
    (hsz : existing.size = f.size)
    (hlen : ¬ f.name.length < existing.name.length) :
    dedupStep st f = { st with duplicates := setInsert st.duplicates f } := by
  unfold dedupStep
  rw [h]
  dsimp only
  rw [if_neg (fun hne => hne hsz), if_neg hlen]

/-! ### Invariants of the classifier -/

/-- Every record stored in the originals map sits under its own
normalized name. -/
def keyConsistent (st : DedupState) : Prop :=
  ∀ k v, mapLookup st.originals k = some v → v.name_undup = k

/-- Every duplicate has an original under its normalized name, of the
same size. -/
def dupsCovered (st : DedupState) : Prop :=
  ∀ d ∈ st.duplicates,
    ∃ o, mapLookup st.originals d.name_undup = some o ∧ o.size = d.size

theorem dedupStep_keyConsistent_dupsCovered (st : DedupState) (f : FileInfo)
    (h1 : keyConsistent st) (h2 : dupsCovered st) :
    keyConsistent (dedupStep st f) ∧ dupsCovered (dedupStep st f) := by
  cases hcase : mapLookup st.originals f.name_undup with
  | none =>
      rw [dedupStep_none st f hcase]
      constructor
      · intro k v hv
        rw [mapLookup_mapInsert] at hv
        by_cases hk : f.name_undup = k
        · rw [if_pos hk] at hv
          injection hv with hv
          rw [← hv, hk]
        · rw [if_neg hk] at hv
          exact h1 k v hv
      · intro d hd
        rcases h2 d hd with ⟨o, ho, hsz⟩
        by_cases hk : f.name_undup = d.name_undup
        · rw [← hk, hcase] at ho
          exact absurd ho (by simp)
        · refine ⟨o, ?_, hsz⟩
          rw [mapLookup_mapInsert, if_neg hk]
          exact ho
  | some existing =>
      by_cases hsz : existing.size = f.size
      · by_cases hlen : f.name.length < existing.name.length
        · rw [dedupStep_reassign st f existing hcase hsz hlen]
          have hexk : existing.name_undup = f.name_undup := h1 _ _ hcase
          constructor
          · intro k v hv
            rw [mapLookup_mapInsert] at hv
            by_cases hk : f.name_undup = k
            · rw [if_pos hk] at hv
              injection hv with hv
              rw [← hv, hk]
            · rw [if_neg hk] at hv
              exact h1 k v hv
          · intro d hd
            rcases mem_setRemove.1 hd with ⟨hd', hdf⟩
            rcases mem_setInsert.1 hd' with rfl | hdold
            · refine ⟨f, ?_, ?_⟩
              · rw [mapLookup_mapInsert, if_pos hexk.symm]
              · exact hsz.symm
            · rcases h2 d hdold with ⟨o, ho, hos⟩
              by_cases hk : f.name_undup = d.name_undup
              · have hoe : o = existing := by
                  rw [← hk, hcase] at ho
                  injection ho with ho
                  exact ho.symm
                refine ⟨f, ?_, ?_⟩
                · rw [mapLookup_mapInsert, if_pos hk]
                · rw [← hsz, ← hoe, hos]
              · refine ⟨o, ?_, hos⟩
                rw [mapLookup_mapInsert, if_neg hk]
                exact ho
        · rw [dedupStep_longer st f existing hcase hsz hlen]
          refine ⟨h1, ?_⟩
          intro d hd
          rcases mem_setInsert.1 hd with rfl | hdold
          · exact ⟨existing, hcase, hsz⟩
          · exact h2 d hdold
      · rw [dedupStep_diffsize st f existing hcase (fun he => hsz he)]
        exact ⟨h1, h2⟩

theorem dedup_fold_keyConsistent_dupsCovered (files : List FileInfo) (st : DedupState)
    (h1 : keyConsistent st) (h2 : dupsCovered st) :
    keyConsistent (files.foldl dedupStep st) ∧ dupsCovered (files.foldl dedupStep st) := by
  induction files generalizing st with
  | nil => exact ⟨h1, h2⟩
  | cons f rest ih =>
      rw [List.foldl_cons]
      rcases dedupStep_keyConsistent_dupsCovered st f h1 h2 with ⟨h1', h2'⟩
      exact ih (dedupStep st f) h1' h2'

theorem dedup_name_size_dupsCovered (files : List FileInfo) :
    dupsCovered (dedup_name_size files) := by
  have h0 : keyConsistent { originals := [], duplicates := [] } := by
    intro k v hv
    simp [mapLookup] at hv
  have h0' : dupsCovered { originals := [], duplicates := [] } := by
    intro d hd
    simp at hd
  exact (dedup_fold_keyConsistent_dupsCovered files _ h0 h0').2

theorem dedup_name_size_keyConsistent (files : List FileInfo) :
    keyConsistent (dedup_name_size files) := by
  have h0 : keyConsistent { originals := [], duplicates := [] } := by
    intro k v hv
    simp [mapLookup] at hv
  have h0' : dupsCovered { originals := [], duplicates := [] } := by
    intro d hd
    simp at hd
  exact (dedup_fold_keyConsistent_dupsCovered files _ h0 h0').1

/-! ### The partition invariant of the classifier -/

/-- The originals association list binds each key at most once. -/
def keysNodup (st : DedupState) : Prop := (mapKeys st.originals).Nodup

/-- All originals-map values come from the processed records. -/
def origsFrom (done : List FileInfo) (st : DedupState) : Prop :=
  ∀ p ∈ st.originals, p.2 ∈ done

/-- All duplicates come from the processed records. -/
def dupsFrom (done : List FileInfo) (st : DedupState) : Prop :=
  ∀ d ∈ st.duplicates, d ∈ done

/-- Every processed record is currently an original (under its own key) or
a duplicate, never both. -/
def exactlyOne (done : List FileInfo) (st : DedupState) : Prop :=
  ∀ g ∈ done,
    (mapLookup st.originals g.name_undup = some g ∧ g ∉ st.duplicates) ∨
    (g ∈ st.duplicates ∧ mapLookup st.originals g.name_undup ≠ some g)

theorem inOriginalsValues_iff (st : DedupState) (hkc : keyConsistent st)
    (hkn : keysNodup st) (f : FileInfo) :
    inOriginalsValues st f ↔ mapLookup st.originals f.name_undup = some f := by
  constructor
  · rintro ⟨p, hp, rfl⟩
    have hp2 : (p.1, p.2) ∈ st.originals := by
      cases p
      exact hp
    have hl := mem_mapLookup hkn hp2
    have hk := hkc p.1 p.2 hl
    rw [hk]
    exact hl
  · intro h
    exact ⟨(f.name_undup, f), mapLookup_mem h, rfl⟩

theorem dedupStep_partition (files : List FileInfo)
    (Hsz : ∀ a ∈ files, ∀ b ∈ files, a.name_undup = b.name_undup → a.size = b.size)
    (done : List FileInfo) (st : DedupState) (f : FileInfo)
    (hf : f ∈ files) (hdone : ∀ g ∈ done, g ∈ files) (hfresh : f ∉ done)
    (hkc : keyConsistent st) (hkn : keysNodup st) (hof : origsFrom done st)
    (hdf : dupsFrom done st) (hex : exactlyOne done st) :
    keyConsistent (dedupStep st f) ∧ keysNodup (dedupStep st f) ∧
    origsFrom (done ++ [f]) (dedupStep st f) ∧
    dupsFrom (done ++ [f]) (dedupStep st f) ∧
    exactlyOne (done ++ [f]) (dedupStep st f) := by
  have hkc_insert : keyConsistent
      { originals := mapInsert st.originals f.name_undup f,
        duplicates := st.duplicates } := by
    intro k v hv
    rw [mapLookup_mapInsert] at hv
    by_cases hk : f.name_undup = k
    · rw [if_pos hk] at hv
      injection hv with hv
      rw [← hv, hk]
    · rw [if_neg hk] at hv
      exact hkc k v hv
  cases hcase : mapLookup st.originals f.name_undup with
  | none =>
      rw [dedupStep_none st f hcase]
      refine ⟨hkc_insert, mapKeys_mapInsert_nodup _ _ hkn, ?_, ?_, ?_⟩
      · intro p hp
        rcases List.mem_cons.1 hp with rfl | hp
        · simp
        · exact List.mem_append_left _ (hof p (List.mem_of_mem_filter hp))
      · intro d hd
        exact List.mem_append_left _ (hdf d hd)
      · intro g hg
        rcases List.mem_append.1 hg with hg | hg
        · rcases hex g hg with ⟨hl, hnd⟩ | ⟨hd, hnl⟩
          · left
            refine ⟨?_, hnd⟩
            rw [mapLookup_mapInsert]
            have hk : f.name_undup ≠ g.name_undup := by
              intro hk
              rw [← hk, hcase] at hl
              exact absurd hl (by simp)
            rw [if_neg hk]
            exact hl
          · right
            refine ⟨hd, ?_⟩
            rw [mapLookup_mapInsert]
            by_cases hk : f.name_undup = g.name_undup
            · rw [if_pos hk]
              intro hfg
              injection hfg with hfg
              exact hfresh (hfg ▸ hg)
            · rw [if_neg hk]
              exact hnl
        · have hg : g = f := by simpa using hg
          subst hg
          left
          constructor
          · rw [mapLookup_mapInsert, if_pos rfl]
          · intro hgd
            exact hfresh (hdf g hgd)
  | some existing =>
      have hmem : (f.name_undup, existing) ∈ st.originals := mapLookup_mem hcase
      have hexdone : existing ∈ done := hof _ hmem
      have hexkey : existing.name_undup = f.name_undup := hkc _ _ hcase
      have hsz : existing.size = f.size :=
        Hsz existing (hdone _ hexdone) f hf hexkey
      have hfe : f ≠ existing := fun he => hfresh (he ▸ hexdone)
      by_cases hlen : f.name.length < existing.name.length
      · rw [dedupStep_reassign st f existing hcase hsz hlen]
        have hexA : mapLookup st.originals existing.name_undup = some existing ∧
            existing ∉ st.duplicates := by
          rcases hex existing hexdone with hA | ⟨_, hnl⟩
          · exact hA
          · rw [hexkey, hcase] at hnl
            exact absurd rfl hnl
        refine ⟨hkc_insert, mapKeys_mapInsert_nodup _ _ hkn, ?_, ?_, ?_⟩
        · intro p hp
          rcases List.mem_cons.1 hp with rfl | hp
          · simp
          · exact List.mem_append_left _ (hof p (List.mem_of_mem_filter hp))
        · intro d hd
          rcases mem_setRemove.1 hd with ⟨hd', _⟩
          rcases mem_setInsert.1 hd' with rfl | hdold
          · exact List.mem_append_left _ hexdone
          · exact List.mem_append_left _ (hdf d hdold)
        · intro g hg
          rcases List.mem_append.1 hg with hg | hg
          · by_cases hge : g = existing
            · subst hge
              right
              constructor
              · exact mem_setRemove.2 ⟨mem_setInsert.2 (Or.inl rfl), fun h => hfe h.symm⟩
              · rw [hexkey, mapLookup_mapInsert, if_pos rfl]
                intro h
                injection h with h
                exact hfe h
            · by_cases hk : f.name_undup = g.name_undup
              · have hgB : g ∈ st.duplicates := by
                  rcases hex g hg with ⟨hl, _⟩ | ⟨hB, _⟩
                  · rw [← hk, hcase] at hl
                    injection hl with hl
                    exact absurd hl.symm hge
                  · exact hB
                right
                constructor
                · refine mem_setRemove.2 ⟨mem_setInsert.2 (Or.inr hgB), ?_⟩
                  intro h
                  exact hfresh (h ▸ hg)
                · rw [mapLookup_mapInsert, if_pos hk]
                  intro h
                  injection h with h
                  exact hfresh (h ▸ hg)
              · rcases hex g hg with ⟨hl, hnd⟩ | ⟨hB, hnl⟩
                · left
                  constructor
                  · rw [mapLookup_mapInsert, if_neg hk]
                    exact hl
                  · intro hgd
                    rcases mem_setRemove.1 hgd with ⟨hd', _⟩
                    rcases mem_setInsert.1 hd' with rfl | hdold
                    · exact hge rfl
                    · exact hnd hdold
                · right
                  constructor
                  · refine mem_setRemove.2 ⟨mem_setInsert.2 (Or.inr hB), ?_⟩
                    intro h
                    exact hfresh (h ▸ hg)
                  · rw [mapLookup_mapInsert, if_neg hk]
                    exact hnl
          · have hg : g = f := by simpa using hg
            subst hg
            left
            constructor
            · rw [mapLookup_mapInsert, if_pos rfl]
            · intro hgd
              rcases mem_setRemove.1 hgd with ⟨_, hne⟩
              exact hne rfl
      · rw [dedupStep_longer st f existing hcase hsz hlen]
        refine ⟨hkc, hkn, ?_, ?_, ?_⟩
        · intro p hp
          exact List.mem_append_left _ (hof p hp)
        · intro d hd
          rcases mem_setInsert.1 hd with rfl | hdold
          · exact List.mem_append_right _ (by simp)
          · exact List.mem_append_left _ (hdf d hdold)
        · intro g hgmem
          rcases List.mem_append.1 hgmem with hgd0 | hgl
          · rcases hex g hgd0 with ⟨hl, hnd⟩ | ⟨hB, hnl⟩
            · left
              refine ⟨hl, ?_⟩
              intro hgd
              rcases mem_setInsert.1 hgd with hgf | hdold
              · exact hfresh (hgf ▸ hgd0)
              · exact hnd hdold
            · right
              exact ⟨mem_setInsert.2 (Or.inr hB), hnl⟩
          · have hgl : g = f := by simpa using hgl
            subst hgl
            right
            constructor
            · exact mem_setInsert.2 (Or.inl rfl)
            · rw [hcase]
              intro h
              injection h with h
              exact hfe h.symm

theorem dedup_fold_partition (files : List FileInfo)
    (Hsz : ∀ a ∈ files, ∀ b ∈ files, a.name_undup = b.name_undup → a.size = b.size) :
    ∀ (rest done : List FileInfo) (st : DedupState),
    (∀ g ∈ rest, g ∈ files) → (∀ g ∈ done, g ∈ files) → (done ++ rest).Nodup →
    keyConsistent st → keysNodup st → origsFrom done st → dupsFrom done st →
    exactlyOne done st →
    keyConsistent (rest.foldl dedupStep st) ∧ keysNodup (rest.foldl dedupStep st) ∧
    origsFrom (done ++ rest) (rest.foldl dedupStep st) ∧
    dupsFrom (done ++ rest) (rest.foldl dedupStep st) ∧
    exactlyOne (done ++ rest) (rest.foldl dedupStep st) := by
  intro rest
  induction rest with
  | nil =>
      intro done st _ _ _ hkc hkn hof hdf hex
      simpa using ⟨hkc, hkn, hof, hdf, hex⟩
  | cons f rest' ih =>
      intro done st hrest hdone hnd hkc hkn hof hdf hex
      have hf : f ∈ files := hrest f (List.mem_cons_self _ _)
      have hfresh : f ∉ done := by
        rw [List.nodup_append] at hnd
        exact fun hfd => hnd.2.2 hfd (List.mem_cons_self _ _)
      rcases dedupStep_partition files Hsz done st f hf hdone hfresh hkc hkn hof hdf hex
        with ⟨hkc', hkn', hof', hdf', hex'⟩
      have hassoc : done ++ f :: rest' = (done ++ [f]) ++ rest' := by
        simp
      have hnd' : ((done ++ [f]) ++ rest').Nodup := by
        rw [← hassoc]
        exact hnd
      have hdone' : ∀ g ∈ done ++ [f], g ∈ files := by
        intro g hg
        rcases List.mem_append.1 hg with hg | hg
        · exact hdone g hg
        · have : g = f := by simpa using hg
          exact this ▸ hf
      have hrest' : ∀ g ∈ rest', g ∈ files :=
        fun g hg => hrest g (List.mem_cons_of_mem _ hg)
      have := ih (done ++ [f]) (dedupStep st f) hrest' hdone' hnd' hkc' hkn' hof' hdf' hex'
      rw [List.foldl_cons]
      rw [hassoc]
      exact this

theorem dedup_name_size_partition (files : List FileInfo)
    (hnd : files.Nodup)
    (Hsz : ∀ a ∈ files, ∀ b ∈ files, a.name_undup = b.name_undup → a.size = b.size) :
    isPartition files (dedup_name_size files) := by
  have h0kc : keyConsistent { originals := [], duplicates := [] } := by
    intro k v hv
    simp [mapLookup] at hv
  have h0kn : keysNodup { originals := [], duplicates := [] } := by
    simp [keysNodup, mapKeys]
  have h0of : origsFrom [] { originals := [], duplicates := [] } := by
    intro p hp
    simp at hp
  have h0df : dupsFrom [] { originals := [], duplicates := [] } := by
    intro d hd
    simp at hd
  have h0ex : exactlyOne [] { originals := [], duplicates := [] } := by
    intro g hg
    simp at hg
  have hmain := dedup_fold_partition files Hsz files [] _
    (fun g hg => hg) (fun g hg => by simp at hg) (by simpa using hnd)
    h0kc h0kn h0of h0df h0ex
  rcases hmain with ⟨hkc, hkn, hof, hdf, hex⟩
  simp only [List.nil_append] at hof hdf hex
  refine ⟨?_, hof, hdf⟩
  intro f hfin
  rcases hex f hfin with ⟨hl, hnd2⟩ | ⟨hd2, hnl⟩
  · left
    exact ⟨(inOriginalsValues_iff _ hkc hkn f).2 hl, hnd2⟩
  · right
    refine ⟨hd2, ?_⟩
    intro hvals
    exact hnl ((inOriginalsValues_iff _ hkc hkn f).1 hvals)

/-! ### Enumerating the processing orders of two or three records -/

theorem perm_two_cases {α : Type} {x y : α} {l : List α} (h : l.Perm [x, y]) :
    l = [x, y] ∨ l = [y, x] := by
  have hlen : l.length = 2 := by simpa using h.length_eq
  match l, hlen with
  | [a, b], _ =>
      have ha : a ∈ [x, y] := h.subset (by simp)
      rcases (by simpa using ha : a = x ∨ a = y) with hax | hay
      · rw [hax] at h
        have hb : b = y := by
          have := h.cons_inv
          simpa [List.perm_singleton] using this
        left
        rw [hax, hb]
      · rw [hay] at h
        have hxy : ([x, y] : List α).Perm [y, x] := List.Perm.swap y x []
        have hb : b = x := by
          have := (h.trans hxy).cons_inv
          simpa [List.perm_singleton] using this
        right
        rw [hay, hb]

theorem perm_three_cases {α : Type} {x y z : α} {l : List α} (h : l.Perm [x, y, z]) :
    l = [x, y, z] ∨ l = [x, z, y] ∨ l = [y, x, z] ∨ l = [y, z, x] ∨
    l = [z, x, y] ∨ l = [z, y, x] := by
  have hlen : l.length = 3 := by simpa using h.length_eq
  match l, hlen with
  | [a, b, c], _ =>
      have ha : a ∈ [x, y, z] := h.subset (by simp)
      rcases (by simpa using ha : a = x ∨ a = y ∨ a = z) with hax | hay | haz
      · rw [hax] at h
        have htail : [b, c].Perm [y, z] := h.cons_inv
        rcases perm_two_cases htail with hbc | hbc
        · left
          rw [hax, show b = y from by injection hbc, show c = z from by
            injection hbc with _ h2; injection h2]
        · right; left
          rw [hax, show b = z from by injection hbc, show c = y from by
            injection hbc with _ h2; injection h2]
      · rw [hay] at h
        have hswap : ([x, y, z] : List α).Perm [y, x, z] := List.Perm.swap y x [z]
        have htail : [b, c].Perm [x, z] := (h.trans hswap).cons_inv
        rcases perm_two_cases htail with hbc | hbc
        · right; right; left
          rw [hay, show b = x from by injection hbc, show c = z from by
            injection hbc with _ h2; injection h2]
        · right; right; right; left
          rw [hay, show b = z from by injection hbc, show c = x from by
            injection hbc with _ h2; injection h2]
      · rw [haz] at h
        have hstep1 : ([x, y, z] : List α).Perm [x, z, y] := (List.Perm.swap z y []).cons x
        have hstep2 : ([x, z, y] : List α).Perm [z, x, y] := List.Perm.swap z x [y]
        have htail : [b, c].Perm [x, y] := (h.trans (hstep1.trans hstep2)).cons_inv
        rcases perm_two_cases htail with hbc | hbc
        · right; right; right; right; left
          rw [haz, show b = x from by injection hbc, show c = y from by
            injection hbc with _ h2; injection h2]
        · right; right; right; right; right
          rw [haz, show b = y from by injection hbc, show c = x from by
            injection hbc with _ h2; injection h2]

/-! ### The content hash is collision free -/

theorem gxhash64_cons (b : Fin 256) (l : List (Fin 256)) (s : Nat) :
    gxhash64 (b :: l) s = gxhash64 l (s * 257 + b.val + 1) := rfl

theorem gxhash64_lb (l : List (Fin 256)) : ∀ s : Nat, s * 257 ^ l.length ≤ gxhash64 l s := by
  induction l with
  | nil =>
      intro s
      simp [gxhash64]
  | cons b t ih =>
      intro s
      rw [gxhash64_cons, List.length_cons]
      calc s * 257 ^ (t.length + 1) = s * 257 * 257 ^ t.length := by ring
      _ ≤ (s * 257 + b.val + 1) * 257 ^ t.length := Nat.mul_le_mul_right _ (by omega)
      _ ≤ gxhash64 t (s * 257 + b.val + 1) := ih _

theorem gxhash64_ub (l : List (Fin 256)) : ∀ s : Nat, gxhash64 l s < (s + 1) * 257 ^ l.length := by
  induction l with
  | nil =>
      intro s
      simp [gxhash64]
  | cons b t ih =>
      intro s
      rw [gxhash64_cons, List.length_cons]
      have hb : b.val < 256 := b.isLt
      calc gxhash64 t (s * 257 + b.val + 1) < (s * 257 + b.val + 1 + 1) * 257 ^ t.length := ih _
      _ ≤ ((s + 1) * 257) * 257 ^ t.length := Nat.mul_le_mul_right _ (by omega)
      _ = (s + 1) * 257 ^ (t.length + 1) := by ring

theorem gxhash64_lt_of_length_lt {l₁ l₂ : List (Fin 256)} {s : Nat} (hs : 1 ≤ s)
    (hlt : l₁.length < l₂.length) : gxhash64 l₁ s < gxhash64 l₂ s := by
  have h1 := gxhash64_ub l₁ s
  have h2 := gxhash64_lb l₂ s
  have hp : 257 ^ (l₁.length + 1) ≤ 257 ^ l₂.length :=
    Nat.pow_le_pow_right (by norm_num) hlt
  have h3 : (s + 1) * 257 ^ l₁.length ≤ s * 257 ^ l₂.length := by
    calc (s + 1) * 257 ^ l₁.length ≤ (s * 257) * 257 ^ l₁.length :=
      Nat.mul_le_mul_right _ (by omega)
    _ = s * 257 ^ (l₁.length + 1) := by ring
    _ ≤ s * 257 ^ l₂.length := Nat.mul_le_mul_left _ hp
  omega

theorem gxhash64_length_eq {l₁ l₂ : List (Fin 256)} {s : Nat} (hs : 1 ≤ s)
    (h : gxhash64 l₁ s = gxhash64 l₂ s) : l₁.length = l₂.length := by
  rcases Nat.lt_trichotomy l₁.length l₂.length with hlt | heq | hgt
  · exact absurd h (Nat.ne_of_lt (gxhash64_lt_of_length_lt hs hlt))
  · exact heq
  · exact absurd h.symm (Nat.ne_of_lt (gxhash64_lt_of_length_lt hs hgt))

theorem gxhash64_inj {l₁ l₂ : List (Fin 256)} {s : Nat} (hs : 1 ≤ s)
    (h : gxhash64 l₁ s = gxhash64 l₂ s) : l₁ = l₂ := by
  induction l₁ generalizing l₂ s with
  | nil =>
      cases l₂ with
      | nil => rfl
      | cons b t =>
          have := gxhash64_length_eq hs h
          simp at this
  | cons a t₁ ih =>
      cases l₂ with
      | nil =>
          have := gxhash64_length_eq hs h
          simp at this
      | cons b t₂ =>
          have hlen : t₁.length = t₂.length := by
            have := gxhash64_length_eq hs h
            simpa using this
          rw [gxhash64_cons, gxhash64_cons] at h
          have hab : a = b := by
            by_contra habne
            rcases Nat.lt_trichotomy a.val b.val with hlt | heq | hgt
            · have h1 := gxhash64_ub t₁ (s * 257 + a.val + 1)
              have h2 := gxhash64_lb t₂ (s * 257 + b.val + 1)
              rw [hlen] at h1
              have h3 : (s * 257 + a.val + 1 + 1) * 257 ^ t₂.length ≤
                  (s * 257 + b.val + 1) * 257 ^ t₂.length :=
                Nat.mul_le_mul_right _ (by omega)
              omega
            · exact habne (Fin.ext heq)
            · have h1 := gxhash64_ub t₂ (s * 257 + b.val + 1)
              have h2 := gxhash64_lb t₁ (s * 257 + a.val + 1)
              rw [hlen] at h2
              have h3 : (s * 257 + b.val + 1 + 1) * 257 ^ t₂.length ≤
                  (s * 257 + a.val + 1) * 257 ^ t₂.length :=
                Nat.mul_le_mul_right _ (by omega)
              omega
          subst hab
          rw [ih (by omega) h]

/-! ### Behaviour of the hash verifier -/

theorem check_hashes_cons (fs : FileSystem) (g : FileInfo × List FileInfo)
    (rest : List (FileInfo × List FileInfo)) :
    check_hashes fs (g :: rest) =
      ((g.1, (check_group fs g.1 g.2).1) :: (check_hashes fs rest).1,
       (check_group fs g.1 g.2).2 + (check_hashes fs rest).2) := rfl

theorem filter_length_split (p : FileInfo → Bool) (l : List FileInfo) :
    (l.filter p).length + (l.filter (fun x => !p x)).length = l.length := by
  induction l with
  | nil => rfl
  | cons a t ih =>
      by_cases h : p a <;> simp [List.filter_cons, h] <;> omega

theorem check_group_count (fs : FileSystem) (orig : FileInfo) (dups : List FileInfo) :
    (check_group fs orig dups).2 + (check_group fs orig dups).1.length = dups.length := by
  unfold check_group
  cases h : fs orig.path with
  | none => simp
  | some bytes =>
      dsimp only
      rw [Nat.add_comm]
      exact filter_length_split _ _

theorem check_hashes_count (fs : FileSystem) (m : List (FileInfo × List FileInfo)) :
    (check_hashes fs m).2 + countDups (check_hashes fs m).1 = countDups m := by
  induction m with
  | nil => rfl
  | cons g rest ih =>
      rw [check_hashes_cons]
      simp only [countDups, List.map_cons, List.sum_cons] at ih ⊢
      have h1 := check_group_count fs g.1 g.2
      omega

theorem check_group_unreadable (fs : FileSystem) (orig : FileInfo) (dups : List FileInfo)
    (h : fs orig.path = none) : check_group fs orig dups = (dups, 0) := by
  unfold check_group
  rw [h]

theorem check_hashes_append (fs : FileSystem) (m₁ m₂ : List (FileInfo × List FileInfo)) :
    check_hashes fs (m₁ ++ m₂) =
      ((check_hashes fs m₁).1 ++ (check_hashes fs m₂).1,
       (check_hashes fs m₁).2 + (check_hashes fs m₂).2) := by
  induction m₁ with
  | nil => simp [check_hashes]
  | cons g rest ih =>
      rw [List.cons_append, check_hashes_cons, ih, check_hashes_cons]
      simp [Nat.add_assoc]

theorem check_group_idem (fs : FileSystem) (orig : FileInfo) (dups : List FileInfo) :
    check_group fs orig (check_group fs orig dups).1 = ((check_group fs orig dups).1, 0) := by
  cases h : fs orig.path with
  | none =>
      rw [check_group_unreadable fs orig dups h, check_group_unreadable fs orig dups h]
  | some bytes =>
      unfold check_group
      rw [h]
      dsimp only
      simp only [Prod.mk.injEq]
      refine ⟨?_, ?_⟩
      · simp [List.filter_filter]
      · simp [List.filter_filter]

theorem check_hashes_idem (fs : FileSystem) (m : List (FileInfo × List FileInfo)) :
    check_hashes fs (check_hashes fs m).1 = ((check_hashes fs m).1, 0) := by
  induction m with
  | nil => rfl
  | cons g rest ih =>
      rw [check_hashes_cons, check_hashes_cons]
      dsimp only
      rw [check_group_idem, ih]
      simp

/-! ### The normalization rule as the spec words it -/

theorem take_length_sub_two (l : List Char) :
    l.take (l.length - 2) = l.dropLast.dropLast := by
  rw [List.dropLast_eq_take, List.dropLast_eq_take, List.length_take, List.take_take]
  congr 1
  omega

theorem take_length_sub_four (l : List Char) :
    l.take (l.length - 4) = l.dropLast.dropLast.dropLast.dropLast := by
  rw [List.dropLast_eq_take, List.dropLast_eq_take, List.dropLast_eq_take,
    List.dropLast_eq_take, List.length_take, List.length_take, List.length_take,
    List.take_take, List.take_take, List.take_take]
  congr 1
  omega

/-- The normalization rule as the spec states it: a name ending in a
two-character copy suffix loses its last two characters, a name ending in a
four-character parenthesised copy suffix loses its last four characters, and
any other name is unchanged. -/
def spec_normalized_name (name : String) : String :=
  if ends_with name " 2" || ends_with name " 3" || ends_with name " 4" then
    ⟨name.data.dropLast.dropLast⟩
  else if ends_with name " (1)" || ends_with name " (2)" || ends_with name " (3)" then
    ⟨name.data.dropLast.dropLast.dropLast.dropLast⟩
  else
    name

/-- The duplicate-filter behaviour exactly as claim C3 words it: every
predicate tests suffixes of the normalized name. -/
def filtersTestNormalizedName : Prop :=
  ∀ f : FileInfo,
    get_filter (some FilterArg.notwo) f = !(ends_with f.name_undup " 2") ∧
    get_filter (some FilterArg.onlytwo) f = ends_with f.name_undup " 2" ∧
    get_filter (some FilterArg.onlynum) f =
      (ends_with f.name_undup " 2" || ends_with f.name_undup " 3" ||
       ends_with f.name_undup " 4") ∧
    get_filter none f = true

/-! ### Concrete records used as witnesses and counterexamples -/

/-- A record named photo, of size 100. -/
def photoRec : FileInfo := ⟨"photo", "photo", "/photo.jpg", 100⟩

/-- A record named photo 2 (copy suffix), same normalized name and size. -/
def photo2Rec : FileInfo := ⟨"photo 2", "photo", "/photo 2.jpg", 100⟩

/-- A record named photo (1) (copy suffix), same normalized name and size. -/
def photo1Rec : FileInfo := ⟨"photo (1)", "photo", "/photo (1).jpg", 100⟩

/-- A record whose normalized name collides with recB but whose size differs. -/
def recA : FileInfo := ⟨"a", "a", "/a.txt", 1⟩

/-- A record normalizing to the same name as recA, of a different size. -/
def recB : FileInfo := ⟨"a 2", "a", "/a 2.txt", 2⟩

/-- The original of a concrete duplicate group used for witnesses. -/
def origO : FileInfo := ⟨"o", "o", "/o.bin", 1⟩

/-- A duplicate with contents identical to origO. -/
def dupD1 : FileInfo := ⟨"o 2", "o", "/o 2.bin", 1⟩

/-- A duplicate with contents different from origO. -/
def dupD2 : FileInfo := ⟨"o 3", "o", "/o 3.bin", 1⟩

/-- A duplicate whose file cannot be read. -/
def dupGone : FileInfo := ⟨"o 4", "o", "/o 4.bin", 1⟩

/-- A record whose original cannot be read. -/
def origMissing : FileInfo := ⟨"m", "m", "/m.bin", 1⟩

/-- A concrete filesystem: origO and dupD1 hold the byte 7, dupD2 holds the
byte 9, every other path is unreadable. -/
def fsEx : FileSystem := fun p =>
  if p = "/o.bin" then some [(7 : Fin 256)]
  else if p = "/o 2.bin" then some [(7 : Fin 256)]
  else if p = "/o 3.bin" then some [(9 : Fin 256)]
  else none

/-! ### Claim theorems -/

/-- C8: get_undestroyed_name returns its argument with the last two
characters removed when it ends with a two-character copy suffix, else with
the last four characters removed when it ends with a parenthesised copy
suffix, else unchanged, exactly as the claim describes; it is a pure
function of the string. -/
theorem c8_get_undestroyed_name_matches_spec (s : String) :
    get_undestroyed_name s = spec_normalized_name s := by
  unfold get_undestroyed_name spec_normalized_name
  by_cases h1 : (ends_with s " 2" || ends_with s " 3" || ends_with s " 4") = true
  · rw [if_pos h1, if_pos h1, take_length_sub_two]
  · rw [if_neg h1, if_neg h1]
    by_cases h2 : (ends_with s " (1)" || ends_with s " (2)" || ends_with s " (3)") = true
    · rw [if_pos h2, if_pos h2, take_length_sub_four]
    · rw [if_neg h2, if_neg h2]

/-- C3 counterexample: the claim says the filter predicates test the
duplicate's normalized_name, but get_filter tests the display name: on the
record named "a 2" with normalized name "a", the Notwo filter rejects even
though the normalized name does not end in " 2". -/
theorem c3_counterexample_not_normalized_name : ¬ filtersTestNormalizedName :=
  fun h => absurd (h recB).1 (by decide)

/-- C3 (amended): the duplicate-set filter selected by the filter option
evaluates its suffix predicate over each duplicate record's display name
(the name field): Notwo rejects names ending in " 2", Onlytwo accepts only
names ending in " 2", Onlynum accepts only names ending in one of " 2",
" 3", " 4", and no filter accepts every record. -/
theorem c3_filters_test_display_name (f : FileInfo) :
    get_filter (some FilterArg.notwo) f = !(ends_with f.name " 2") ∧
    get_filter (some FilterArg.onlytwo) f = ends_with f.name " 2" ∧
    get_filter (some FilterArg.onlynum) f =
      (ends_with f.name " 2" || ends_with f.name " 3" || ends_with f.name " 4") ∧
    get_filter none f = true :=
  ⟨rfl, rfl, rfl, rfl⟩

/-- C1 counterexample: with two records of the same normalized name but
different sizes, classification is not a partition of the input: the
later record is dropped from both outputs. -/
theorem c1_counterexample_not_partition :
    ¬ isPartition [recA, recB] (dedup_name_size [recA, recB]) := by decide

/-- C1 (amended): whenever the input records are pairwise distinct and any
two records sharing a normalized name also share a size, the classifier
output is a partition of the input: every input record appears in exactly
one of the originals-map values and the duplicates set, with no overlap
and no omission.  (Records whose size differs from the original already
holding their normalized name are dropped, hence the proviso.) -/
theorem c1_partition_when_sizes_agree (files : List FileInfo)
    (hnd : files.Nodup)
    (hsz : ∀ a ∈ files, ∀ b ∈ files, a.name_undup = b.name_undup → a.size = b.size) :
    isPartition files (dedup_name_size files) :=
  dedup_name_size_partition files hnd hsz

/-- C1 witness: the amended partition theorem applied to a concrete
two-record input. -/
theorem c1_partition_witness :
    isPartition [photoRec, photo2Rec] (dedup_name_size [photoRec, photo2Rec]) :=
  c1_partition_when_sizes_agree [photoRec, photo2Rec] (by decide) (by decide)

/-- C2 counterexample: two records with identical normalized name but
different size do not both end up as originals: the second record is
dropped entirely. -/
theorem c2_counterexample_not_both_originals :
    ¬ (inOriginalsValues (dedup_name_size [recA, recB]) recA ∧
       inOriginalsValues (dedup_name_size [recA, recB]) recB) := by decide

/-- C2 (amended): for two records with identical normalized name but
different size, the record meeting the other as the established original is
ignored (with just the two records, the first processed stays the only
original and the other appears in neither output), and in any input neither
record is ever classified as a duplicate whose original is the other,
because a duplicate's original always has the duplicate's own size. -/
theorem c2_diff_size_never_mutual_duplicates (a b : FileInfo) (files : List FileInfo)
    (hk : a.name_undup = b.name_undup) (hs : a.size ≠ b.size) :
    dedup_name_size [a, b] =
      { originals := [(a.name_undup, a)], duplicates := [] } ∧
    ¬ (a ∈ (dedup_name_size files).duplicates ∧
       mapLookup (dedup_name_size files).originals a.name_undup = some b) ∧
    ¬ (b ∈ (dedup_name_size files).duplicates ∧
       mapLookup (dedup_name_size files).originals b.name_undup = some a) := by
  refine ⟨?_, ?_, ?_⟩
  · unfold dedup_name_size
    rw [List.foldl_cons, List.foldl_cons, List.foldl_nil]
    have h1 : dedupStep { originals := [], duplicates := [] } a =
        { originals := [(a.name_undup, a)], duplicates := [] } := by
      rw [dedupStep_none { originals := [], duplicates := [] } a rfl]
      rfl
    rw [h1]
    have hlook : mapLookup [(a.name_undup, a)] b.name_undup = some a := by
      simp [mapLookup, hk]
    exact dedupStep_diffsize _ b a hlook hs
  · rintro ⟨hdup, hlook⟩
    rcases dedup_name_size_dupsCovered files a hdup with ⟨o, ho, hos⟩
    rw [ho] at hlook
    injection hlook with hlook
    rw [hlook] at hos
    exact hs hos.symm
  · rintro ⟨hdup, hlook⟩
    rcases dedup_name_size_dupsCovered files b hdup with ⟨o, ho, hos⟩
    rw [ho] at hlook
    injection hlook with hlook
    rw [hlook] at hos
    exact hs hos

/-- C2 witness: the amended theorem applied to the concrete records recA
and recB of different sizes. -/
theorem c2_diff_size_witness :
    dedup_name_size [recA, recB] =
      { originals := [(recA.name_undup, recA)], duplicates := [] } ∧
    ¬ (recA ∈ (dedup_name_size [recA, recB]).duplicates ∧
       mapLookup (dedup_name_size [recA, recB]).originals recA.name_undup = some recB) ∧
    ¬ (recB ∈ (dedup_name_size [recA, recB]).duplicates ∧
       mapLookup (dedup_name_size [recA, recB]).originals recB.name_undup = some recA) :=
  c2_diff_size_never_mutual_duplicates recA recB [recA, recB] (by decide) (by decide)

/-- C4: for every processing order of the three same-size records photo,
photo 2 and photo (1), the classifier makes photo (the strictly shortest
display name) the only original under the key "photo" and the other two
records duplicates; and for both processing orders of the two records
photo 2 and photo, photo ends as the original and photo 2 as the only
duplicate. -/
theorem c4_shortest_name_wins (l₁ l₂ : List FileInfo)
    (h₁ : l₁.Perm [photoRec, photo2Rec, photo1Rec])
    (h₂ : l₂.Perm [photo2Rec, photoRec]) :
    (mapLookup (dedup_name_size l₁).originals "photo" = some photoRec ∧
     photo2Rec ∈ (dedup_name_size l₁).duplicates ∧
     photo1Rec ∈ (dedup_name_size l₁).duplicates ∧
     photoRec ∉ (dedup_name_size l₁).duplicates ∧
     (dedup_name_size l₁).duplicates.length = 2) ∧
    (mapLookup (dedup_name_size l₂).originals "photo" = some photoRec ∧
     (dedup_name_size l₂).duplicates = [photo2Rec]) := by
  constructor
  · rcases perm_three_cases h₁ with h | h | h | h | h | h <;> subst h <;> decide
  · rcases perm_two_cases h₂ with h | h <;> subst h <;> decide

/-- C4 witness: the order-independence theorem applied to one concrete
order of each input. -/
theorem c4_shortest_name_witness :
    (mapLookup (dedup_name_size [photo2Rec, photoRec, photo1Rec]).originals "photo" =
       some photoRec ∧
     photo2Rec ∈ (dedup_name_size [photo2Rec, photoRec, photo1Rec]).duplicates ∧
     photo1Rec ∈ (dedup_name_size [photo2Rec, photoRec, photo1Rec]).duplicates ∧
     photoRec ∉ (dedup_name_size [photo2Rec, photoRec, photo1Rec]).duplicates ∧
     (dedup_name_size [photo2Rec, photoRec, photo1Rec]).duplicates.length = 2) ∧
    (mapLookup (dedup_name_size [photo2Rec, photoRec]).originals "photo" = some photoRec ∧
     (dedup_name_size [photo2Rec, photoRec]).duplicates = [photo2Rec]) :=
  c4_shortest_name_wins [photo2Rec, photoRec, photo1Rec] [photo2Rec, photoRec]
    (by decide) (by decide)

/-- C10: every record in the final duplicates set has an original stored
under its normalized name, of the same size, so the unwrapped lookup used
when grouping duplicates in main never fails. -/
theorem c10_duplicates_have_matching_original (files : List FileInfo) (d : FileInfo)
    (hd : d ∈ (dedup_name_size files).duplicates) :
    ∃ o, mapLookup (dedup_name_size files).originals d.name_undup = some o ∧
      o.size = d.size :=
  dedup_name_size_dupsCovered files d hd

/-- C10 witness: the invariant applied to a concrete duplicate. -/
theorem c10_duplicates_witness :
    photo2Rec ∈ (dedup_name_size [photoRec, photo2Rec]).duplicates ∧
    ∃ o, mapLookup (dedup_name_size [photoRec, photo2Rec]).originals
        photo2Rec.name_undup = some o ∧ o.size = photo2Rec.size :=
  ⟨by decide,
   c10_duplicates_have_matching_original [photoRec, photo2Rec] photo2Rec (by decide)⟩

/-- C5: for a group with a readable original O and duplicates D1 (same
bytes as O) and D2 (different bytes), the hash verifier leaves the group
holding only D1 and returns 1; and in general the returned count equals
the total number of duplicates removed across all groups (count plus
surviving duplicates equals the input duplicates). -/
theorem c5_hash_verifier_scenario (fs : FileSystem) (O D1 D2 : FileInfo)
    (bO b2 : List (Fin 256))
    (hO : fs O.path = some bO) (hd1 : fs D1.path = some bO)
    (hd2 : fs D2.path = some b2) (hne : b2 ≠ bO) :
    check_hashes fs [(O, [D1, D2])] = ([(O, [D1])], 1) ∧
    ∀ m, (check_hashes fs m).2 + countDups (check_hashes fs m).1 = countDups m := by
  refine ⟨?_, fun m => check_hashes_count fs m⟩
  have hcd1 : check_dup_hash fs D1 (gxhash64 bO HASH_SEED) = true := by
    unfold check_dup_hash
    rw [hd1]
    simp
  have hcd2 : check_dup_hash fs D2 (gxhash64 bO HASH_SEED) = false := by
    unfold check_dup_hash
    rw [hd2]
    simp only [beq_eq_false_iff_ne, ne_eq]
    intro heq
    exact hne (gxhash64_inj (by norm_num [HASH_SEED]) heq)
  rw [check_hashes_cons]
  unfold check_group
  rw [hO]
  simp [List.filter_cons, hcd1, hcd2, check_hashes]

/-- C5 witness: the scenario theorem applied to a concrete filesystem
where the original and first duplicate hold the byte 7 and the second
duplicate the byte 9. -/
theorem c5_hash_verifier_witness :
    check_hashes fsEx [(origO, [dupD1, dupD2])] = ([(origO, [dupD1])], 1) ∧
    (check_hashes fsEx [(origO, [dupD1, dupD2])]).2 +
      countDups (check_hashes fsEx [(origO, [dupD1, dupD2])]).1 =
      countDups [(origO, [dupD1, dupD2])] := by
  have h := c5_hash_verifier_scenario fsEx origO dupD1 dupD2
    [(7 : Fin 256)] [(9 : Fin 256)] (by decide) (by decide) (by decide) (by decide)
  exact ⟨h.1, h.2 [(origO, [dupD1, dupD2])]⟩

/-- C6: a group whose original cannot be read is left completely
unmodified by the hash verifier, wherever it sits in the group mapping,
and contributes nothing to the returned false-positive count. -/
theorem c6_unreadable_original_skipped (fs : FileSystem) (orig : FileInfo)
    (dups : List FileInfo) (m₁ m₂ : List (FileInfo × List FileInfo))
    (h : fs orig.path = none) :
    (check_hashes fs (m₁ ++ (orig, dups) :: m₂)).1 =
      (check_hashes fs m₁).1 ++ (orig, dups) :: (check_hashes fs m₂).1 ∧
    (check_hashes fs (m₁ ++ (orig, dups) :: m₂)).2 =
      (check_hashes fs m₁).2 + (check_hashes fs m₂).2 := by
  rw [check_hashes_append, check_hashes_cons]
  dsimp only
  rw [check_group_unreadable fs orig dups h]
  exact ⟨rfl, by simp⟩

/-- C6 witness: the skip theorem applied to a concrete mapping whose first
group has an unreadable original. -/
theorem c6_unreadable_original_witness :
    (check_hashes fsEx ([] ++ (origMissing, [dupD2]) :: [(origO, [dupD1])])).1 =
      (check_hashes fsEx []).1 ++
        (origMissing, [dupD2]) :: (check_hashes fsEx [(origO, [dupD1])]).1 ∧
    (check_hashes fsEx ([] ++ (origMissing, [dupD2]) :: [(origO, [dupD1])])).2 =
      (check_hashes fsEx []).2 + (check_hashes fsEx [(origO, [dupD1])]).2 :=
  c6_unreadable_original_skipped fsEx origMissing [dupD2] [] [(origO, [dupD1])] (by decide)

/-- C7: a duplicate whose file cannot be read while its original is
readable is treated as a hash mismatch: check_dup_hash returns false for
it under any original hash, it is removed from its group, and the group
count (the number of removed duplicates) is at least one. -/
theorem c7_unreadable_duplicate_rejected (fs : FileSystem) (orig dup : FileInfo)
    (dups : List FileInfo) (bO : List (Fin 256))
    (hO : fs orig.path = some bO) (hd : fs dup.path = none) (hmem : dup ∈ dups) :
    (∀ orig_hash, check_dup_hash fs dup orig_hash = false) ∧
    dup ∉ (check_group fs orig dups).1 ∧
    1 ≤ (check_group fs orig dups).2 := by
  have hfalse : ∀ oh, check_dup_hash fs dup oh = false := by
    intro oh
    unfold check_dup_hash
    rw [hd]
  refine ⟨hfalse, ?_, ?_⟩
  · unfold check_group
    rw [hO]
    dsimp only
    intro hmem2
    rcases List.mem_filter.1 hmem2 with ⟨_, hp⟩
    rw [hfalse] at hp
    simp at hp
  · unfold check_group
    rw [hO]
    dsimp only
    have hin : dup ∈ dups.filter (fun d => !check_dup_hash fs d (gxhash64 bO HASH_SEED)) :=
      List.mem_filter.2 ⟨hmem, by rw [hfalse]; rfl⟩
    exact List.length_pos.2 (List.ne_nil_of_mem hin)

/-- C7 witness: the rejection theorem applied to a concrete group with a
readable original and an unreadable duplicate. -/
theorem c7_unreadable_duplicate_witness :
    check_dup_hash fsEx dupGone 0 = false ∧
    dupGone ∉ (check_group fsEx origO [dupD1, dupGone]).1 ∧
    1 ≤ (check_group fsEx origO [dupD1, dupGone]).2 := by
  have h := c7_unreadable_duplicate_rejected fsEx origO dupGone [dupD1, dupGone]
    [(7 : Fin 256)] (by decide) (by decide) (by decide)
  exact ⟨h.1 0, h.2.1, h.2.2⟩

/-- C9: running the hash verifier again on the group mapping it already
produced, over the same filesystem contents, removes nothing further: the
groups are returned unchanged and the count is 0. -/
theorem c9_hash_verifier_idempotent (fs : FileSystem)
    (m : List (FileInfo × List FileInfo)) :
    check_hashes fs (check_hashes fs m).1 = ((check_hashes fs m).1, 0) :=
  check_hashes_idem fs m
